import Mathlib

/-!
Verification of the HolE knowledge-graph embedding model
(`src/poem/models/unimodal/hole.py`) and the self-adversarial
negative-sampling loss exercised by `tests/test_loss_functions.py`.

The torch primitives used by the code are embedded faithfully:
`torch.rfft(x, signal_ndim=1, onesided=False)` returns, per frequency, a
pair of reals (real part, imaginary part) of the discrete Fourier
transform; `a_fft[:, :, 1] *= -1` negates the imaginary component;
`a_fft * b_fft` is torch's ELEMENTWISE product of two `(d, 2)` real
tensors (componentwise on the pairs, not complex multiplication);
`torch.irfft(p, signal_ndim=1, onesided=False, signal_sizes=(d,))`
interprets the pairs as complex numbers, applies the normalized inverse
transform and keeps the real part.
-/

namespace PoemHolE

noncomputable section

/-- Discrete Fourier transform of a real vector at frequency `k`:
`X_k = Σ_j x_j · exp(-2πi·j·k/d)` (torch's unnormalized forward transform). -/
def dftPoint (d : ℕ) (x : Fin d → ℝ) (k : Fin d) : ℂ :=
  ∑ j : Fin d, (x j : ℂ) *
    Complex.exp (-(2 * (Real.pi : ℂ) * Complex.I * ((j.val * k.val : ℕ) : ℂ)) / (d : ℂ))

/-- Embedding of `torch.rfft(x, signal_ndim=1, onesided=False)`: per frequency the
(real, imaginary) pair of the full DFT, as the `(d, 2)` real tensor layout. -/
def torchRfft (d : ℕ) (x : Fin d → ℝ) : Fin d → ℝ × ℝ :=
  fun k => ((dftPoint d x k).re, (dftPoint d x k).im)

/-- Embedding of `fft[:, :, 1] *= -1`: negate the imaginary component (complex conjugation
in the `(d, 2)` layout). -/
def negImag (d : ℕ) (v : Fin d → ℝ × ℝ) : Fin d → ℝ × ℝ :=
  fun k => ((v k).1, -(v k).2)

/-- Embedding of `a_fft * b_fft`: torch elementwise multiplication of two `(d, 2)` real
tensors — it multiplies the real parts together and the imaginary parts
together, componentwise on the pairs. -/
def elemMul (d : ℕ) (a b : Fin d → ℝ × ℝ) : Fin d → ℝ × ℝ :=
  fun k => ((a k).1 * (b k).1, (a k).2 * (b k).2)

/-- Normalized inverse DFT of a `(d, 2)` pair tensor at position `n`, as a
complex number: `(1/d) · Σ_k (p_k.re + p_k.im·i) · exp(2πi·n·k/d)`. -/
def idftPoint (d : ℕ) (p : Fin d → ℝ × ℝ) (n : Fin d) : ℂ :=
  (1 / (d : ℂ)) * ∑ k : Fin d, (((p k).1 : ℂ) + ((p k).2 : ℂ) * Complex.I) *
    Complex.exp (2 * (Real.pi : ℂ) * Complex.I * ((n.val * k.val : ℕ) : ℂ) / (d : ℂ))

/-- Embedding of `torch.irfft(p, signal_ndim=1, onesided=False, signal_sizes=(d,))`:
inverse transform, discarding the imaginary component of the output. -/
def torchIrfft (d : ℕ) (p : Fin d → ℝ × ℝ) (n : Fin d) : ℝ :=
  (idftPoint d p n).re

/-- One row of the composite computed by `HolE.forward_owa` (lines 95-107):
rfft both entity vectors, negate the head transform's imaginary component,
take torch's elementwise product of the two `(d, 2)` tensors, irfft. -/
def holeCompositeRow (d : ℕ) (h t : Fin d → ℝ) : Fin d → ℝ :=
  torchIrfft d (elemMul d (negImag d (torchRfft d h)) (torchRfft d t))

/-- One row of scores: `torch.sum(r * composite, dim=-1)` (line 110). -/
def holeScoreRow (d : ℕ) (h r t : Fin d → ℝ) : ℝ :=
  ∑ n, r n * holeCompositeRow d h t n

/-- Torch reduction mode of a loss. -/
inductive Reduction
  | mean
  | sumRed

/-- The criteria that appear in the repository: `nn.MarginRankingLoss` and
`NegativeSamplingSelfAdversarialLoss`. -/
inductive Criterion
  | marginRankingLoss (margin : ℝ) (reduction : Reduction)
  | selfAdversarial (margin adversarial_temperature : ℝ)

/-- The state owned by a constructed `HolE` model: the two embedding tables
and the criterion. -/
structure HolEModel (numEntities numRelations embeddingDim : ℕ) where
  entity_embeddings : Fin numEntities → Fin embeddingDim → ℝ
  relation_embeddings : Fin numRelations → Fin embeddingDim → ℝ
  criterion : Criterion

/-- Embedding of `nn.Embedding` row gather: an out-of-range integer index is an
index-out-of-bounds error (`none`). -/
def lookupRow {n d : ℕ} (table : Fin n → Fin d → ℝ) (i : ℕ) : Option (Fin d → ℝ) :=
  if h : i < n then some (table ⟨i, h⟩) else none

/-- Embedding of `HolE.forward_owa` (lines 89-112): per row, look up head, relation and
tail, build the composite, and dot it with the relation row. -/
def forward_owa {nE nR d : ℕ} (M : HolEModel nE nR d) (batch : List (ℕ × ℕ × ℕ)) :
    Option (List ℝ) :=
  batch.mapM fun row => do
    let h ← lookupRow M.entity_embeddings row.1
    let r ← lookupRow M.relation_embeddings row.2.1
    let t ← lookupRow M.entity_embeddings row.2.2
    pure (holeScoreRow d h r t)

/-- Embedding of `HolE.forward_cwa` (lines 114-136): per row, the head and relation are
looked up, the tail ranges over the whole entity table
(`t = self.entity_embeddings.weight`); the broadcast
`h_fft[:, None] * t_fft[None, :]` makes entry `e` of a row the elementwise
pair product of the head transform with entity `e`'s transform. -/
def forward_cwa {nE nR d : ℕ} (M : HolEModel nE nR d) (batch : List (ℕ × ℕ)) :
    Option (List (Fin nE → ℝ)) :=
  batch.mapM fun row => do
    let h ← lookupRow M.entity_embeddings row.1
    let r ← lookupRow M.relation_embeddings row.2
    pure (fun e => ∑ n, r n * holeCompositeRow d h (M.entity_embeddings e) n)

/-- Embedding of `HolE.forward_inverse_cwa` (lines 138-160): per row, relation and tail
are looked up, the head ranges over the whole entity table, and the full
table occupies the conjugated (head) position (`h_fft[:, :, 1] *= -1`). -/
def forward_inverse_cwa {nE nR d : ℕ} (M : HolEModel nE nR d) (batch : List (ℕ × ℕ)) :
    Option (List (Fin nE → ℝ)) :=
  batch.mapM fun row => do
    let r ← lookupRow M.relation_embeddings row.1
    let t ← lookupRow M.entity_embeddings row.2
    pure (fun e => ∑ n, r n * holeCompositeRow d (M.entity_embeddings e) t n)

/-- The bound `6 / np.sqrt(num_embeddings + embedding_dim)` (lines 72-74 and 80-82). -/
def initBound (rows dim : ℕ) : ℝ := 6 / Real.sqrt ((rows : ℝ) + (dim : ℝ))

/-- Embedding of `nn.init.uniform_(w, a, b)` on one cell: a raw uniform draw
`r ∈ [0, 1]` mapped affinely onto `[a, b]`. -/
def uniformDraw (a b r : ℝ) : ℝ := a + r * (b - a)

/-- The entity table produced by `HolE._init_embeddings` (lines 68, 72-79). -/
def initEntityTable (nE d : ℕ) (raw : Fin nE → Fin d → ℝ) : Fin nE → Fin d → ℝ :=
  fun i j => uniformDraw (-initBound nE d) (initBound nE d) (raw i j)

/-- The relation table produced by `HolE._init_embeddings` (lines 69, 80-87). -/
def initRelationTable (nR d : ℕ) (raw : Fin nR → Fin d → ℝ) : Fin nR → Fin d → ℝ :=
  fun i j => uniformDraw (-initBound nR d) (initBound nR d) (raw i j)

/-- Embedding of `HolE.__init__` (lines 39-65): the default criterion is
`nn.MarginRankingLoss(margin=1., reduction='mean')`; the optional tables are
stored, and if either is `None`, `_init_embeddings` re-creates BOTH tables. -/
def holeInit (nE nR d : ℕ)
    (entity_embeddings : Option (Fin nE → Fin d → ℝ))
    (relation_embeddings : Option (Fin nR → Fin d → ℝ))
    (criterion : Option Criterion)
    (rawE : Fin nE → Fin d → ℝ) (rawR : Fin nR → Fin d → ℝ) :
    HolEModel nE nR d :=
  let crit := criterion.getD (Criterion.marginRankingLoss 1 Reduction.mean)
  match entity_embeddings, relation_embeddings with
  | some e, some r => ⟨e, r, crit⟩
  | _, _ => ⟨initEntityTable nE d rawE, initRelationTable nR d rawR, crit⟩

/-- The class attribute `HolE.entity_embedding_max_norm = 1` (line 37). -/
def entity_embedding_max_norm : ℝ := 1

/-- Euclidean norm of one embedding row. -/
def rowNorm (d : ℕ) (x : Fin d → ℝ) : ℝ := Real.sqrt (∑ i, x i ^ 2)

/-- Modelled from the spec: the max-norm hook enforcing
`entity_embedding_max_norm` (the `nn.Embedding` machinery applying it lives
in the base module, which is not under `src/`): "clip each entity row to
max Euclidean norm 1.0 (hard blocker if exceeded — rescale down, never
error)". A row whose norm exceeds the bound is rescaled to the bound;
other rows are untouched. -/
def clipRowToMaxNorm (d : ℕ) (maxNorm : ℝ) (x : Fin d → ℝ) : Fin d → ℝ :=
  if rowNorm d x ≤ maxNorm then x else fun i => x i * (maxNorm / rowNorm d x)

/-- The spec's composite `IFFT(conj(FFT(head)) ⊙ FFT(tail))` with a TRUE
complex Hadamard product, written from the spec's words for comparison with
`holeCompositeRow`. -/
def specComposite (d : ℕ) (h t : Fin d → ℝ) (n : Fin d) : ℝ :=
  ((1 / (d : ℂ)) * ∑ k : Fin d, (starRingEnd ℂ) (dftPoint d h k) * dftPoint d t k *
    Complex.exp (2 * (Real.pi : ℂ) * Complex.I * ((n.val * k.val : ℕ) : ℂ) / (d : ℂ))).re

/-- The spec's single-triple score: dot product of the relation row with the
spec composite. -/
def specScoreRow (d : ℕ) (h r t : Fin d → ℝ) : ℝ :=
  ∑ n, r n * specComposite d h t n

/-- The spec's direct circular correlation:
`k`-th element `Σ_i a_i · b_((i+k) mod d)` (`Fin` addition is mod `d`). -/
def ccorrDirect (d : ℕ) (a b : Fin d → ℝ) (k : Fin d) : ℝ :=
  ∑ i : Fin d, a i * b (i + k)

/-- Scaling every component of a row scales its Euclidean norm by the
absolute value of the factor. -/
lemma rowNorm_mul_right (d : ℕ) (x : Fin d → ℝ) (c : ℝ) :
    rowNorm d (fun i => x i * c) = |c| * rowNorm d x := by
  unfold rowNorm
  rw [← Real.sqrt_sq_eq_abs, ← Real.sqrt_mul (sq_nonneg c)]
  congr 1
  rw [Finset.mul_sum]
  exact Finset.sum_congr rfl fun i _ => by ring

lemma rowNorm_nonneg (d : ℕ) (x : Fin d → ℝ) : 0 ≤ rowNorm d x :=
  Real.sqrt_nonneg _

/-- A raw draw in `[0, 1]` mapped onto `[-b, b]` stays within `[-b, b]`. -/
lemma abs_uniformDraw_le {b r : ℝ} (hb : 0 ≤ b) (h0 : 0 ≤ r) (h1 : r ≤ 1) :
    |uniformDraw (-b) b r| ≤ b := by
  unfold uniformDraw
  rw [abs_le]
  constructor <;> nlinarith

lemma initBound_nonneg (rows dim : ℕ) : 0 ≤ initBound rows dim :=
  div_nonneg (by norm_num) (Real.sqrt_nonneg _)

/-- C8: for every scoring mode, a zero-row index batch produces a zero-row
score tensor and no error is raised. -/
theorem empty_batch_scores {nE nR d : ℕ} (M : HolEModel nE nR d) :
    forward_owa M [] = some [] ∧ forward_cwa M [] = some [] ∧
      forward_inverse_cwa M [] = some [] :=
  ⟨rfl, rfl, rfl⟩

/-- C10: when no criterion is supplied, `HolE.__init__` sets the criterion
to `nn.MarginRankingLoss(margin=1., reduction='mean')`, not the
self-adversarial loss. -/
theorem default_criterion_is_margin_ranking (nE nR d : ℕ)
    (eo : Option (Fin nE → Fin d → ℝ)) (ro : Option (Fin nR → Fin d → ℝ))
    (rawE : Fin nE → Fin d → ℝ) (rawR : Fin nR → Fin d → ℝ) :
    (holeInit nE nR d eo ro none rawE rawR).criterion =
      Criterion.marginRankingLoss 1 Reduction.mean := by
  unfold holeInit
  cases eo <;> cases ro <;> rfl

/-- C7 counterexample: a pre-supplied entity table is NOT kept when the
relation table is not supplied — `_init_embeddings` re-creates both tables,
discarding the given one (the constant-5 entity table becomes the uniform
initialization, here 0). -/
theorem presupplied_entity_table_discarded :
    (holeInit 1 1 1 (some fun _ _ => 5) none none
        (fun _ _ => 1 / 2) (fun _ _ => 1 / 2)).entity_embeddings 0 0 ≠ 5 := by
  have hval : (holeInit 1 1 1 (some fun _ _ => 5) none none
      (fun _ _ => 1 / 2) (fun _ _ => 1 / 2)).entity_embeddings 0 0 = 0 := by
    show uniformDraw (-initBound 1 1) (initBound 1 1) (1 / 2) = 0
    unfold uniformDraw
    ring
  rw [hval]
  norm_num

/-- C7 amended: when BOTH embedding tables are pre-supplied, random
initialization is bypassed and both supplied tables are used unchanged; if
either is missing, `_init_embeddings` re-creates both. -/
theorem presupplied_tables_used_when_both_given (nE nR d : ℕ)
    (E : Fin nE → Fin d → ℝ) (R : Fin nR → Fin d → ℝ) (critOpt : Option Criterion)
    (rawE : Fin nE → Fin d → ℝ) (rawR : Fin nR → Fin d → ℝ) :
    (holeInit nE nR d (some E) (some R) critOpt rawE rawR).entity_embeddings = E ∧
      (holeInit nE nR d (some E) (some R) critOpt rawE rawR).relation_embeddings = R :=
  ⟨rfl, rfl⟩

/-- C6: with raw uniform draws in `[0, 1]`, every initialized entity value
lies in `[-6/√(nE+d), 6/√(nE+d)]` and every relation value lies in
`[-6/√(nR+d), 6/√(nR+d)]`, each bound computed from its own table's rows. -/
theorem init_embeddings_within_bound (nE nR d : ℕ)
    (rawE : Fin nE → Fin d → ℝ) (rawR : Fin nR → Fin d → ℝ)
    (hE : ∀ i j, 0 ≤ rawE i j ∧ rawE i j ≤ 1)
    (hR : ∀ i j, 0 ≤ rawR i j ∧ rawR i j ≤ 1) :
    (∀ i j, |initEntityTable nE d rawE i j| ≤ initBound nE d) ∧
      (∀ i j, |initRelationTable nR d rawR i j| ≤ initBound nR d) := by
  constructor
  · intro i j
    exact abs_uniformDraw_le (initBound_nonneg nE d) (hE i j).1 (hE i j).2
  · intro i j
    exact abs_uniformDraw_le (initBound_nonneg nR d) (hR i j).1 (hR i j).2

theorem init_embeddings_within_bound_witness :
    ((∀ (i : Fin 2) (j : Fin 2),
        0 ≤ (fun _ _ => (1 / 2 : ℝ)) i j ∧ (fun _ _ => (1 / 2 : ℝ)) i j ≤ 1) ∧
      (∀ (i : Fin 3) (j : Fin 2),
        0 ≤ (fun _ _ => (1 / 3 : ℝ)) i j ∧ (fun _ _ => (1 / 3 : ℝ)) i j ≤ 1)) ∧
    ((∀ i j, |initEntityTable 2 2 (fun _ _ => 1 / 2) i j| ≤ initBound 2 2) ∧
      (∀ i j, |initRelationTable 3 2 (fun _ _ => 1 / 3) i j| ≤ initBound 3 2)) :=
  ⟨⟨fun _ _ => by norm_num, fun _ _ => by norm_num⟩,
    init_embeddings_within_bound 2 3 2 (fun _ _ => 1 / 2) (fun _ _ => 1 / 3)
      (fun _ _ => by norm_num) (fun _ _ => by norm_num)⟩

/-- C9: with the entity max norm fixed at 1 (`entity_embedding_max_norm`),
the clipping hook leaves every entity row with Euclidean norm at most 1
(rows over the bound are rescaled down, never rejected). -/
theorem entity_row_norm_le_one_after_clip (d : ℕ) (x : Fin d → ℝ) :
    rowNorm d (clipRowToMaxNorm d entity_embedding_max_norm x) ≤ 1 := by
  unfold clipRowToMaxNorm entity_embedding_max_norm
  by_cases hle : rowNorm d x ≤ 1
  · rw [if_pos hle]
    exact hle
  · have hpos : 0 < rowNorm d x := lt_trans one_pos (not_le.mp hle)
    simp only [hle, if_false]
    rw [rowNorm_mul_right]
    rw [abs_of_nonneg (by positivity)]
    rw [div_mul_cancel₀]
    exact ne_of_gt hpos

/-- C3: for valid indices, the single-triple score equals entry `t` of the
all-tails row and entry `h` of the all-heads row (the full entity table
occupying the conjugated head position in all-heads mode). -/
theorem mode_consistency {nE nR d : ℕ} (M : HolEModel nE nR d)
    (hi ri ti : ℕ) (hh : hi < nE) (hr : ri < nR) (ht : ti < nE) :
    ∃ (s : ℝ) (row rowInv : Fin nE → ℝ),
      forward_owa M [(hi, ri, ti)] = some [s] ∧
      forward_cwa M [(hi, ri)] = some [row] ∧ row ⟨ti, ht⟩ = s ∧
      forward_inverse_cwa M [(ri, ti)] = some [rowInv] ∧ rowInv ⟨hi, hh⟩ = s := by
  refine ⟨holeScoreRow d (M.entity_embeddings ⟨hi, hh⟩) (M.relation_embeddings ⟨ri, hr⟩)
      (M.entity_embeddings ⟨ti, ht⟩),
    fun e => ∑ n, M.relation_embeddings ⟨ri, hr⟩ n *
      holeCompositeRow d (M.entity_embeddings ⟨hi, hh⟩) (M.entity_embeddings e) n,
    fun e => ∑ n, M.relation_embeddings ⟨ri, hr⟩ n *
      holeCompositeRow d (M.entity_embeddings e) (M.entity_embeddings ⟨ti, ht⟩) n,
    ?_, ?_, rfl, ?_, rfl⟩
  · simp [forward_owa, lookupRow, List.mapM.loop, hh, hr, ht, holeScoreRow]
  · simp [forward_cwa, lookupRow, List.mapM.loop, hh, hr]
  · simp [forward_inverse_cwa, lookupRow, List.mapM.loop, hr, ht]

/-- A tiny concrete model used to instantiate theorems with hypotheses. -/
def witnessModel : HolEModel 1 1 1 :=
  ⟨fun _ _ => 0, fun _ _ => 0, Criterion.marginRankingLoss 1 Reduction.mean⟩

theorem mode_consistency_witness :
    (0 < 1 ∧ 0 < 1 ∧ 0 < 1) ∧
      ∃ (s : ℝ) (row rowInv : Fin 1 → ℝ),
        forward_owa witnessModel [(0, 0, 0)] = some [s] ∧
        forward_cwa witnessModel [(0, 0)] = some [row] ∧ row 0 = s ∧
        forward_inverse_cwa witnessModel [(0, 0)] = some [rowInv] ∧ rowInv 0 = s :=
  ⟨⟨Nat.one_pos, Nat.one_pos, Nat.one_pos⟩,
    mode_consistency witnessModel 0 0 0 Nat.one_pos Nat.one_pos Nat.one_pos⟩

lemma exp_half_pi_I : Complex.exp ((Real.pi : ℂ) / 2 * Complex.I) = Complex.I := by
  have h : ((Real.pi : ℂ) / 2) = ((Real.pi / 2 : ℝ) : ℂ) := by push_cast; ring
  rw [h, Complex.exp_mul_I, ← Complex.ofReal_cos, ← Complex.ofReal_sin,
    Real.cos_pi_div_two, Real.sin_pi_div_two]
  simp

/-- The inverse-transform kernel at length 4 is a power of `i`. -/
lemma exp_pos_quarter (m : ℕ) :
    Complex.exp (2 * (Real.pi : ℂ) * Complex.I * (m : ℂ) / 4) = Complex.I ^ m := by
  have h : 2 * (Real.pi : ℂ) * Complex.I * (m : ℂ) / 4 =
      (m : ℂ) * ((Real.pi : ℂ) / 2 * Complex.I) := by ring
  rw [h, Complex.exp_nat_mul, exp_half_pi_I]

/-- The forward-transform kernel at length 4 is a power of `-i`. -/
lemma exp_neg_quarter (m : ℕ) :
    Complex.exp (-(2 * (Real.pi : ℂ) * Complex.I * (m : ℂ)) / 4) = (-Complex.I) ^ m := by
  have h : -(2 * (Real.pi : ℂ) * Complex.I * (m : ℂ)) / 4 =
      (m : ℂ) * -((Real.pi : ℂ) / 2 * Complex.I) := by ring
  rw [h, Complex.exp_nat_mul, Complex.exp_neg, exp_half_pi_I, Complex.inv_I]

/-- Concrete length-4 entity vector `(1, 1, 0, 0)`. -/
def aVec : Fin 4 → ℝ := ![1, 1, 0, 0]

/-- Concrete length-4 relation vector `(1, 0, 0, 0)`. -/
def rVec : Fin 4 → ℝ := ![1, 0, 0, 0]

lemma finval_aux : ((0 : Fin 4) : ℕ) = 0 ∧ ((1 : Fin 4) : ℕ) = 1 ∧
    ((2 : Fin 4) : ℕ) = 2 ∧ ((3 : Fin 4) : ℕ) = 3 :=
  ⟨rfl, rfl, rfl, rfl⟩

lemma dftPoint_aVec_zero : dftPoint 4 aVec 0 = 2 := by
  simp only [dftPoint, Fin.sum_univ_four, Nat.cast_ofNat, exp_neg_quarter,
    finval_aux.1, finval_aux.2.1, finval_aux.2.2.1, finval_aux.2.2.2]
  norm_num [aVec]

lemma dftPoint_aVec_one : dftPoint 4 aVec 1 = 1 - Complex.I := by
  simp only [dftPoint, Fin.sum_univ_four, Nat.cast_ofNat, exp_neg_quarter,
    finval_aux.1, finval_aux.2.1, finval_aux.2.2.1, finval_aux.2.2.2]
  norm_num [aVec, pow_succ, Complex.I_sq]
  ring

lemma dftPoint_aVec_two : dftPoint 4 aVec 2 = 0 := by
  simp only [dftPoint, Fin.sum_univ_four, Nat.cast_ofNat, exp_neg_quarter,
    finval_aux.1, finval_aux.2.1, finval_aux.2.2.1, finval_aux.2.2.2]
  norm_num [aVec, pow_succ, Complex.I_sq]

lemma dftPoint_aVec_three : dftPoint 4 aVec 3 = 1 + Complex.I := by
  simp only [dftPoint, Fin.sum_univ_four, Nat.cast_ofNat, exp_neg_quarter,
    finval_aux.1, finval_aux.2.1, finval_aux.2.2.1, finval_aux.2.2.2]
  norm_num [aVec, pow_succ, Complex.I_sq]

/-- Entry 0 of the composite computed by the code on head = tail =
`(1, 1, 0, 0)`: the elementwise pair product gives `3/2`. -/
lemma holeCompositeRow_aVec_zero : holeCompositeRow 4 aVec aVec 0 = 3 / 2 := by
  unfold holeCompositeRow torchIrfft idftPoint elemMul negImag torchRfft
  rw [Fin.sum_univ_four]
  simp only [Nat.cast_ofNat, finval_aux.1, finval_aux.2.1, finval_aux.2.2.1,
    finval_aux.2.2.2, exp_pos_quarter, dftPoint_aVec_zero, dftPoint_aVec_one,
    dftPoint_aVec_two, dftPoint_aVec_three]
  norm_num [pow_succ, Complex.I_sq]

/-- Entry 0 of the spec's direct circular correlation on the same vectors
is `2`. -/
lemma ccorrDirect_aVec_zero : ccorrDirect 4 aVec aVec 0 = 2 := by
  simp [ccorrDirect, Fin.sum_univ_four, aVec]
  norm_num

/-- Entry 0 of the spec's composite (true complex Hadamard product) on the
same vectors is `2`, agreeing with the direct correlation. -/
lemma specComposite_aVec_zero : specComposite 4 aVec aVec 0 = 2 := by
  unfold specComposite
  rw [Fin.sum_univ_four]
  simp only [Nat.cast_ofNat, finval_aux.1, finval_aux.2.1, finval_aux.2.2.1,
    finval_aux.2.2.2, exp_pos_quarter, dftPoint_aVec_zero, dftPoint_aVec_one,
    dftPoint_aVec_two, dftPoint_aVec_three]
  norm_num [pow_succ, Complex.I_sq]

/-- C2: the frequency-domain correlation computed by the code does NOT
equal the direct definition `Σ_i a_i·b_((i+k) mod d)`: on
`a = b = (1, 1, 0, 0)` (length 4), the code's entry 0 is `3/2` while the
direct definition gives `2` — torch's `a_fft * b_fft` on `(d, 2)` real
tensors multiplies componentwise instead of complex-multiplying. -/
theorem spectral_code_vs_direct_correlation :
    holeCompositeRow 4 aVec aVec 0 = 3 / 2 ∧ ccorrDirect 4 aVec aVec 0 = 2 :=
  ⟨holeCompositeRow_aVec_zero, ccorrDirect_aVec_zero⟩

/-- A concrete model exhibiting the scoring divergence: one entity with
embedding `(1, 1, 0, 0)` and one relation with embedding `(1, 0, 0, 0)`. -/
def bugModel : HolEModel 1 1 4 :=
  ⟨fun _ => aVec, fun _ => rVec, Criterion.marginRankingLoss 1 Reduction.mean⟩

/-- C1: `forward_owa` does NOT return the dot product of the relation
embedding with `IFFT(conj(FFT(head)) ⊙ FFT(tail))`: on the triple
`(0, 0, 0)` of `bugModel` the code returns `3/2`, while the spec's formula
(with a true complex Hadamard product `⊙`) gives `2`. -/
theorem forward_owa_vs_spec_formula :
    forward_owa bugModel [(0, 0, 0)] = some [3 / 2] ∧
      specScoreRow 4 aVec rVec aVec = 2 := by
  constructor
  · have hscore : holeScoreRow 4 aVec rVec aVec = 3 / 2 := by
      unfold holeScoreRow
      rw [Fin.sum_univ_four, holeCompositeRow_aVec_zero]
      norm_num [rVec]
    simp [forward_owa, lookupRow, List.mapM.loop, bugModel, hscore]
  · unfold specScoreRow
    rw [Fin.sum_univ_four, specComposite_aVec_zero]
    norm_num [rVec]

/-- Embedding of `log(sigmoid(x))` via the numerically stable identity
`log(sigmoid(x)) = -softplus(-x) = -log(1 + exp(-x))` prescribed by the
spec. -/
def logSigmoid (x : ℝ) : ℝ := -Real.log (1 + Real.exp (-x))

/-- Modelled from the spec: the temperature-scaled softmax weights over the
negative scores, `weight_j = exp(temperature·neg_j) / Σ_k exp(temperature·neg_k)`
(the loss implementation itself is not under `src/`; only its test is). -/
def softmaxWeights (temperature : ℝ) (neg : List ℝ) : List ℝ :=
  (neg.map fun s => Real.exp (temperature * s)).map
    fun e => e / (neg.map fun s => Real.exp (temperature * s)).sum

/-- Arithmetic mean of a list of reals. -/
def listMean (l : List ℝ) : ℝ := l.sum / l.length

/-- Modelled from the spec: `NegativeSamplingSelfAdversarialLoss` with the
flat negative batch forming one softmax group (as in the test):
negative term `mean_j(weight_j · log σ(neg_j − margin))`, positive term
`mean(log σ(margin − pos))`, final loss `−(pos_term + neg_term)/2`. -/
def selfAdversarialLossFn (margin adversarial_temperature : ℝ)
    (pos neg : List ℝ) : ℝ :=
  -(listMean (pos.map fun s => logSigmoid (margin - s)) +
      listMean (List.zipWith (fun w s => w * logSigmoid (s - margin))
        (softmaxWeights adversarial_temperature neg) neg)) / 2

lemma list_sum_map_eq_fin (f : ℝ → ℝ) (l : List ℝ) :
    (l.map f).sum = ∑ j : Fin l.length, f (l.get j) := by
  conv_lhs => rw [← List.ofFn_get l]
  rw [List.map_ofFn, List.sum_ofFn]
  simp [Function.comp]

lemma exp_map_sum_pos (τ : ℝ) (neg : List ℝ) (hneg : neg ≠ []) :
    0 < (neg.map fun s => Real.exp (τ * s)).sum := by
  refine List.sum_pos _ ?_ ?_
  · intro x hx
    obtain ⟨s, _, rfl⟩ := List.mem_map.mp hx
    exact Real.exp_pos _
  · simpa using hneg

/-- C4: the self-adversarial loss equals
`−(mean_pos log σ(margin − pos) + mean_j weight_j·log σ(neg_j − margin)) / 2`
with `weight_j = exp(τ·neg_j)/Σ_k exp(τ·neg_k)`, and the weights sum to 1. -/
theorem self_adversarial_loss_formula (margin τ : ℝ) (pos neg : List ℝ)
    (hneg : neg ≠ []) :
    (softmaxWeights τ neg).sum = 1 ∧
      selfAdversarialLossFn margin τ pos neg =
        -((pos.map fun s => logSigmoid (margin - s)).sum / pos.length +
            (∑ j : Fin neg.length,
              (Real.exp (τ * neg.get j) / ∑ k : Fin neg.length, Real.exp (τ * neg.get k)) *
                logSigmoid (neg.get j - margin)) / neg.length) / 2 := by
  have hT : 0 < (neg.map fun s => Real.exp (τ * s)).sum := exp_map_sum_pos τ neg hneg
  have hTfin : (∑ k : Fin neg.length, Real.exp (τ * neg.get k)) =
      (neg.map fun s => Real.exp (τ * s)).sum :=
    (list_sum_map_eq_fin (fun s => Real.exp (τ * s)) neg).symm
  constructor
  · unfold softmaxWeights
    rw [List.map_map]
    have : ((fun e => e / (neg.map fun s => Real.exp (τ * s)).sum) ∘
        fun s => Real.exp (τ * s)) =
        fun s => Real.exp (τ * s) / (neg.map fun s => Real.exp (τ * s)).sum := rfl
    rw [this, list_sum_map_eq_fin, ← Finset.sum_div, hTfin]
    exact div_self (ne_of_gt hT)
  · unfold selfAdversarialLossFn softmaxWeights listMean
    rw [List.map_map, List.zipWith_map_left, List.zipWith_same, hTfin]
    rw [← list_sum_map_eq_fin
      (fun s => Real.exp (τ * s) / (neg.map fun s => Real.exp (τ * s)).sum *
        logSigmoid (s - margin)) neg]
    simp [Function.comp]

/-- A one-element score list used to instantiate the loss formula. -/
def wList : List ℝ := [0]

theorem self_adversarial_loss_formula_witness :
    wList ≠ [] ∧
      ((softmaxWeights 1 wList).sum = 1 ∧
        selfAdversarialLossFn 1 1 wList wList =
          -((wList.map fun s => logSigmoid (1 - s)).sum / wList.length +
              (∑ j : Fin wList.length,
                (Real.exp (1 * wList.get j) /
                    (∑ k : Fin wList.length, Real.exp (1 * wList.get k))) *
                  logSigmoid (wList.get j - 1)) / wList.length) / 2) :=
  ⟨by simp [wList], self_adversarial_loss_formula 1 1 wList wList (by simp [wList])⟩

lemma exp_three_halves_bounds :
    Real.exp (3 / 2) ≤ 4.48173 ∧ (4.481689 : ℝ) ≤ Real.exp (3 / 2) := by
  have hsq : Real.exp (3 / 2) ^ 2 = Real.exp 3 := by rw [← Real.exp_nat_mul]; norm_num
  have h3 : Real.exp 3 = Real.exp 1 ^ 3 := by rw [← Real.exp_nat_mul]; norm_num
  have hu : Real.exp 1 < 2.7182818286 := Real.exp_one_lt_d9
  have hl : (2.7182818283 : ℝ) < Real.exp 1 := Real.exp_one_gt_d9
  have hpos := Real.exp_pos (3 / 2 : ℝ)
  have h3u : Real.exp 3 ≤ 20.08553693 := by
    rw [h3]
    calc Real.exp 1 ^ 3 ≤ 2.7182818286 ^ 3 :=
          pow_le_pow_left₀ (Real.exp_pos 1).le hu.le 3
      _ ≤ 20.08553693 := by norm_num
  have h3l : (20.0855369196 : ℝ) ≤ Real.exp 3 := by
    rw [h3]
    calc (20.0855369196 : ℝ) ≤ 2.7182818283 ^ 3 := by norm_num
      _ ≤ Real.exp 1 ^ 3 := pow_le_pow_left₀ (by norm_num) hl.le 3
  constructor
  · nlinarith
  · nlinarith

lemma exp_neg_three_halves_bounds :
    (0.223128 : ℝ) ≤ Real.exp (-(3 / 2)) ∧ Real.exp (-(3 / 2)) ≤ 0.2231302 := by
  have hmul : Real.exp (-(3 / 2) : ℝ) * Real.exp (3 / 2) = 1 := by
    rw [← Real.exp_add]; norm_num
  have hpos := Real.exp_pos (-(3 / 2) : ℝ)
  have hpos2 := Real.exp_pos (3 / 2 : ℝ)
  have hu := exp_three_halves_bounds.1
  have hl := exp_three_halves_bounds.2
  constructor
  · nlinarith
  · nlinarith

lemma exp_two_bounds : (7.389056098 : ℝ) ≤ Real.exp 2 ∧ Real.exp 2 ≤ 7.3890561 := by
  have h2 : Real.exp 2 = Real.exp 1 ^ 2 := by rw [← Real.exp_nat_mul]; norm_num
  have hu : Real.exp 1 < 2.7182818286 := Real.exp_one_lt_d9
  have hl : (2.7182818283 : ℝ) < Real.exp 1 := Real.exp_one_gt_d9
  constructor
  · rw [h2]
    calc (7.389056098 : ℝ) ≤ 2.7182818283 ^ 2 := by norm_num
      _ ≤ Real.exp 1 ^ 2 := pow_le_pow_left₀ (by norm_num) hl.le 2
  · rw [h2]
    calc Real.exp 1 ^ 2 ≤ 2.7182818286 ^ 2 :=
          pow_le_pow_left₀ (Real.exp_pos 1).le hu.le 2
      _ ≤ 7.3890561 := by norm_num

/-- Two-sided bound on `log(1 + e⁻¹)`. -/
lemma logA_bounds : (0.31322 : ℝ) ≤ Real.log (1 + Real.exp (-1)) ∧
    Real.log (1 + Real.exp (-1)) ≤ 0.32 := by
  have hEl : (0.36787944116 : ℝ) < Real.exp (-1) := Real.exp_neg_one_gt_d9
  have hEu : Real.exp (-1) < 0.3678794412 := Real.exp_neg_one_lt_d9
  constructor
  · rw [Real.le_log_iff_exp_le (by positivity)]
    have h := @Real.exp_bound' 0.31322 (by norm_num) (by norm_num) 8 (by norm_num)
    have h2 : (∑ m ∈ Finset.range 8, (0.31322 : ℝ) ^ m / m.factorial) +
        (0.31322 : ℝ) ^ 8 * (8 + 1) / (Nat.factorial 8 * 8) ≤ 1.3678225 := by
      simp [Finset.sum_range_succ, Nat.factorial]
      norm_num
    linarith
  · rw [Real.log_le_iff_le_exp (by positivity)]
    have h := @Real.sum_le_exp_of_nonneg 0.32 (by norm_num) 6
    have h2 : (1.36787945 : ℝ) ≤ ∑ m ∈ Finset.range 6, (0.32 : ℝ) ^ m / m.factorial := by
      simp [Finset.sum_range_succ, Nat.factorial]
      norm_num
    linarith

/-- Two-sided bound on `log(1 + e^(-3/2))`. -/
lemma logB_bounds : (0.20138 : ℝ) ≤ Real.log (1 + Real.exp (-(3 / 2))) ∧
    Real.log (1 + Real.exp (-(3 / 2))) ≤ 0.21 := by
  have hEl := exp_neg_three_halves_bounds.1
  have hEu := exp_neg_three_halves_bounds.2
  constructor
  · rw [Real.le_log_iff_exp_le (by positivity)]
    have h := @Real.exp_bound' 0.20138 (by norm_num) (by norm_num) 8 (by norm_num)
    have h2 : (∑ m ∈ Finset.range 8, (0.20138 : ℝ) ^ m / m.factorial) +
        (0.20138 : ℝ) ^ 8 * (8 + 1) / (Nat.factorial 8 * 8) ≤ 1.2230896 := by
      simp [Finset.sum_range_succ, Nat.factorial]
      norm_num
    linarith
  · rw [Real.log_le_iff_le_exp (by positivity)]
    have h := @Real.sum_le_exp_of_nonneg 0.21 (by norm_num) 6
    have h2 : (1.2231302 : ℝ) ≤ ∑ m ∈ Finset.range 6, (0.21 : ℝ) ^ m / m.factorial := by
      simp [Finset.sum_range_succ, Nat.factorial]
      norm_num
    linarith

/-- Two-sided bound on `log(1 + e)`. -/
lemma logC_bounds : (1.31322 : ℝ) ≤ Real.log (1 + Real.exp 1) ∧
    Real.log (1 + Real.exp 1) ≤ 1.314 := by
  have hu : Real.exp 1 < 2.7182818286 := Real.exp_one_lt_d9
  have hl : (2.7182818283 : ℝ) < Real.exp 1 := Real.exp_one_gt_d9
  constructor
  · rw [Real.le_log_iff_exp_le (by positivity)]
    have hsplit : Real.exp (1.31322 : ℝ) = Real.exp 1 * Real.exp 0.31322 := by
      rw [← Real.exp_add]; norm_num
    have hx : Real.exp (0.31322 : ℝ) ≤ 1.3678225 := by
      have h := @Real.exp_bound' 0.31322 (by norm_num) (by norm_num) 8 (by norm_num)
      have h2 : (∑ m ∈ Finset.range 8, (0.31322 : ℝ) ^ m / m.factorial) +
          (0.31322 : ℝ) ^ 8 * (8 + 1) / (Nat.factorial 8 * 8) ≤ 1.3678225 := by
        simp [Finset.sum_range_succ, Nat.factorial]
        norm_num
      linarith
    have hprod : Real.exp 1 * Real.exp 0.31322 ≤ 2.7182818286 * 1.3678225 :=
      mul_le_mul hu.le hx (Real.exp_pos _).le (by norm_num)
    rw [hsplit]
    nlinarith
  · rw [Real.log_le_iff_le_exp (by positivity)]
    have h := @Real.sum_le_exp_of_nonneg 1.314 (by norm_num) 10
    have h2 : (3.7182818286 : ℝ) ≤ ∑ m ∈ Finset.range 10, (1.314 : ℝ) ^ m / m.factorial := by
      simp [Finset.sum_range_succ, Nat.factorial]
      norm_num
    linarith

/-- Two-sided bound on `log(1 + e²)`. -/
lemma logD_bounds : (2.12692 : ℝ) ≤ Real.log (1 + Real.exp 2) ∧
    Real.log (1 + Real.exp 2) ≤ 2.13 := by
  have h2l := exp_two_bounds.1
  have h2u := exp_two_bounds.2
  constructor
  · rw [Real.le_log_iff_exp_le (by positivity)]
    have hsplit : Real.exp (2.12692 : ℝ) = Real.exp 2 * Real.exp 0.12692 := by
      rw [← Real.exp_add]; norm_num
    have hx : Real.exp (0.12692 : ℝ) ≤ 1.1353263 := by
      have h := @Real.exp_bound' 0.12692 (by norm_num) (by norm_num) 8 (by norm_num)
      have h2 : (∑ m ∈ Finset.range 8, (0.12692 : ℝ) ^ m / m.factorial) +
          (0.12692 : ℝ) ^ 8 * (8 + 1) / (Nat.factorial 8 * 8) ≤ 1.1353263 := by
        simp [Finset.sum_range_succ, Nat.factorial]
        norm_num
      linarith
    have hprod : Real.exp 2 * Real.exp 0.12692 ≤ 7.3890561 * 1.1353263 :=
      mul_le_mul h2u hx (Real.exp_pos _).le (by norm_num)
    rw [hsplit]
    nlinarith
  · rw [Real.log_le_iff_le_exp (by positivity)]
    have h := @Real.sum_le_exp_of_nonneg 2.13 (by norm_num) 12
    have h2 : (8.3890561 : ℝ) ≤ ∑ m ∈ Finset.range 12, (2.13 : ℝ) ^ m / m.factorial := by
      simp [Finset.sum_range_succ, Nat.factorial]
      norm_num
    linarith

/-- The loss at the test inputs in closed form. -/
lemma selfAdversarialLoss_test_closed_form :
    selfAdversarialLossFn 1 1 [0, 0, -(1 / 2), -(1 / 2)] [0, 0, -1, -1] =
      (Real.log (1 + Real.exp (-1)) + Real.log (1 + Real.exp (-(3 / 2)))
        + (Real.log (1 + Real.exp 1) + Real.exp (-1) * Real.log (1 + Real.exp 2))
          / (2 + 2 * Real.exp (-1))) / 4 := by
  unfold selfAdversarialLossFn softmaxWeights listMean logSigmoid
  norm_num
  ring_nf

/-- C5: on positive scores `[0, 0, -0.5, -0.5]` and negative scores
`[0, 0, -1, -1]` with `margin = 1` and `adversarial_temperature = 1`, the
self-adversarial loss is within `0.02` of `0.34`. -/
theorem loss_sanity_value :
    |selfAdversarialLossFn 1 1 [0, 0, -(1 / 2), -(1 / 2)] [0, 0, -1, -1] - 0.34| ≤ 0.02 := by
  rw [selfAdversarialLoss_test_closed_form]
  have hA1 := logA_bounds.1
  have hA2 := logA_bounds.2
  have hB1 := logB_bounds.1
  have hB2 := logB_bounds.2
  have hC1 := logC_bounds.1
  have hC2 := logC_bounds.2
  have hD1 := logD_bounds.1
  have hD2 := logD_bounds.2
  have hEl : (0.36787944116 : ℝ) < Real.exp (-1) := Real.exp_neg_one_gt_d9
  have hEu : Real.exp (-1) < 0.3678794412 := Real.exp_neg_one_lt_d9
  have hden : (0 : ℝ) < 2 + 2 * Real.exp (-1) := by positivity
  have hfrac_lo : (0.766 : ℝ) ≤
      (Real.log (1 + Real.exp 1) + Real.exp (-1) * Real.log (1 + Real.exp 2))
        / (2 + 2 * Real.exp (-1)) := by
    rw [le_div_iff₀ hden]
    nlinarith [mul_nonneg (by linarith : (0 : ℝ) ≤ Real.exp (-1) - 0.36787944116)
      (by linarith : (0 : ℝ) ≤ Real.log (1 + Real.exp 2) - 2.12692)]
  have hfrac_hi :
      (Real.log (1 + Real.exp 1) + Real.exp (-1) * Real.log (1 + Real.exp 2))
        / (2 + 2 * Real.exp (-1)) ≤ 0.767 := by
    rw [div_le_iff₀ hden]
    nlinarith [mul_nonneg (by linarith : (0 : ℝ) ≤ Real.exp (-1) - 0.36787944116)
      (by linarith : (0 : ℝ) ≤ 2.13 - Real.log (1 + Real.exp 2))]
  rw [abs_le]
  constructor <;> nlinarith

end

end PoemHolE
